import Mathlib

/-!
Shallow embedding of the "sixletters" word game core (gamestate.js and
multiplayer.js), together with theorems checking the natural-language
specification against it.

Conventions of the embedding:
* JS claimant values are an inductive type: `false` (unclaimed) / `true`
  (local solo player) / `1` (system give-up sentinel) / a player-name string.
* The `avail_letters` array of single-character strings (with `""` for an
  emptied slot) becomes `List (Option Char)` with `none` for `""`.
* `mp_scores`, a JS object, becomes an association list keyed by the string
  a JS object key coerces to.
* Randomness (base-word pick, Fisher-Yates shuffle) is passed in as explicit
  oracle parameters.
* UI calls that reveal words and give-up votes are modelled as an emitted
  event list; pure rendering calls (score display etc.) are not modelled.
-/

namespace SixLetters

/-!
List-based models of the JS string primitives.  Lean's own `String`
functions work on UTF-8 byte positions and do not reduce inside the kernel,
so the embedding works on the underlying character lists instead; for the
ASCII game data the two views agree.
-/

/-- JS `toLowerCase()` (ASCII range, as the game data is ASCII). -/
def toLowerStr (s : String) : String :=
  String.mk (s.data.map Char.toLower)

/-- The worker of `splitSp`: split a character list at a separator,
keeping empty fields, as JS `split` does. -/
def splitChAux (sep : Char) : List Char → List Char → List String
  | [], acc => [String.mk acc.reverse]
  | c :: cs, acc =>
    if c = sep then String.mk acc.reverse :: splitChAux sep cs []
    else splitChAux sep cs (c :: acc)

/-- JS `s.split(" ")`: split on every single space, keeping empty fields
(`""` splits to `[""]`). -/
def splitSp (s : String) : List String :=
  splitChAux ' ' s.data []

/-- JS `s.endsWith("_")`: the last character is an underscore. -/
def endsUnderscore (s : String) : Bool :=
  s.data.getLast? = some '_'

/-- JS `s.substring(0, s.length - 1)`: drop the last character. -/
def dropLastStr (s : String) : String :=
  String.mk s.data.dropLast

/-- Strict lexicographic comparison of character lists (character order is
the code-point order, as in the JS default sort comparator). -/
def charListLt : List Char → List Char → Bool
  | [], [] => false
  | [], _ :: _ => true
  | _ :: _, [] => false
  | a :: as, b :: bs => if a < b then true else if b < a then false else charListLt as bs

/-- Lexicographic `<` on strings (the JS default sort comparator). -/
def strLtB (a b : String) : Bool :=
  charListLt a.data b.data

/-- Lexicographic `≤` on strings. -/
def strLeB (a b : String) : Bool :=
  !strLtB b a

/-- The claimant slot of an answer entry, mirroring the JS values
`false` / `true` / `1` / a player-name string. -/
inductive Claimant where
  | unclaimed
  | localPlayer
  | system
  | player (name : String)
deriving DecidableEq, Repr

/-- JS truthiness of the claimant value: `false` is falsy, `true` and `1` are
truthy, a string is truthy unless empty. -/
def Claimant.truthy : Claimant → Bool
  | .unclaimed => false
  | .player "" => false
  | _ => true

/-- The string a claimant coerces to when used as a JS object key
(`mp_scores[playername]`). -/
def claimantKey : Claimant → String
  | .unclaimed => "false"
  | .localPlayer => "true"
  | .system => "1"
  | .player n => n

/-- Events emitted towards the UI observer, as far as the claims need them. -/
inductive UIEvent where
  | revealWord (word : String) (groupIdx posIdx : Nat) (claimant : Claimant)
  | giveUpVote (vote : Bool) (playername : Option String)
deriving DecidableEq, Repr

/-- One answer entry: the word and who claimed it (JS pair `[word, claimant]`). -/
abbrev Entry := String × Claimant

/-- The `answers` variable: an array of word groups. -/
abbrev Answers := List (List Entry)

/-- The mutable module-level state of gamestate.js. -/
structure GameState where
  answers : Answers
  avail_letters : List (Option Char)
  input_box : List Char
  gaveup : Bool
  score : Nat
  mp_scores : List (String × Nat)
deriving DecidableEq, Repr

/-- The `pointvalues` table.  Outside 3–6 the JS lookup yields `undefined`
(propagating NaN); the theorems only use lengths 3–6, where the table is
defined, so the junk value for other lengths is never relied upon. -/
def pointvalues : Nat → Nat
  | 3 => 90
  | 4 => 160
  | 5 => 250
  | 6 => 360
  | _ => 0

/-- Lookup in the `mp_scores` association list (JS property read). -/
def mpGet? : List (String × Nat) → String → Option Nat
  | [], _ => none
  | p :: ps, n => if p.1 = n then some p.2 else mpGet? ps n

/-- Property write on the `mp_scores` object: replace the binding if the key
is present, otherwise add it. -/
def mpSet : List (String × Nat) → String → Nat → List (String × Nat)
  | [], n, v => [(n, v)]
  | p :: ps, n, v => if p.1 = n then (n, v) :: ps else p :: mpSet ps n v

/-- Read `mp_scores[n]` out as a number, with absent keys as 0. -/
def mpGet0 (mp : List (String × Nat)) (n : String) : Nat :=
  (mpGet? mp n).getD 0

/-- JS `addPlayerScore`: add the points to the player's entry when it is
truthy, otherwise store them.
A stored 0 is falsy in JS, hence the inner test. -/
def addPlayerScore (mp : List (String × Nat)) (points : Nat) (playername : String) :
    List (String × Nat) :=
  match mpGet? mp playername with
  | some v => if v ≠ 0 then mpSet mp playername (v + points) else mpSet mp playername points
  | none => mpSet mp playername points

/-- In-place update of the element at an index (identity when out of range),
used for the JS assignments `answers[i][j][1] = playername`. -/
def listModify : List α → Nat → (α → α) → List α
  | [], _, _ => []
  | x :: xs, 0, f => f x :: xs
  | x :: xs, n + 1, f => x :: listModify xs n f

/-- Inner loop of `checkWord`: scan one group for an exact (`===`) match,
reporting the index inside the group and the stored claimant. -/
def checkWordGroup (g : List Entry) (word : String) : Option (Nat × Claimant) :=
  match g with
  | [] => none
  | e :: es =>
    if e.1 = word then some (0, e.2)
    else (checkWordGroup es word).map (fun p => (p.1 + 1, p.2))

/-- JS `checkWord`: first exact match across all groups, as a triple of group
index, index inside the group, and stored claimant; `none` when absent. -/
def checkWord (answers : Answers) (word : String) : Option (Nat × Nat × Claimant) :=
  match answers with
  | [] => none
  | g :: gs =>
    match checkWordGroup g word with
    | some (j, c) => some (0, j, c)
    | none => (checkWord gs word).map (fun t => (t.1 + 1, t.2))

/-- JS `onWordGuess(word, playername)`: reveal a word and credit it, if correct
and not yet guessed.  Returns the new state and the emitted reveal events. -/
def onWordGuess (st : GameState) (word : String) (playername : Claimant) :
    GameState × List UIEvent :=
  match checkWord st.answers word with
  | none => (st, [])
  | some (i, j, c) =>
    if c.truthy then
      (st, [])
    else
      let st1 := { st with
        answers := listModify st.answers i (fun g => listModify g j (fun e => (e.1, playername))) }
      let ev := [UIEvent.revealWord word i j playername]
      if !st1.gaveup then
        if playername ≠ .system then
          let st2 := { st1 with score := st1.score + pointvalues word.length }
          if playername ≠ .localPlayer then
            ({ st2 with
                mp_scores := addPlayerScore st2.mp_scores (pointvalues word.length)
                  (claimantKey playername) }, ev)
          else
            (st2, ev)
        else
          (st1, ev)
      else
        (st1, ev)

/-- Events emitted by `revealAll` for one group, starting at position `j`
inside group `i`: every entry is revealed with the system claimant (JS `1`). -/
def revealGroupEvents (i j : Nat) : List Entry → List UIEvent
  | [] => []
  | e :: es => UIEvent.revealWord e.1 i j .system :: revealGroupEvents i (j + 1) es

/-- Events emitted by `revealAll` from group index `i` on.  `revealAll` only
calls `UI.revealWord`; it does not modify `answers`. -/
def revealAllEvents (i : Nat) : Answers → List UIEvent
  | [] => []
  | g :: gs => revealGroupEvents i 0 g ++ revealAllEvents (i + 1) gs

/-- JS `giveUp(on)`: when not in a multiplayer game (`playername === null`) and
the vote is on, reveal everything and set the `gaveup` flag; otherwise only
forward the vote (the state is untouched). -/
def giveUp (st : GameState) (vote : Bool) (playername : Option String) :
    GameState × List UIEvent :=
  if playername = none ∧ vote then
    ({ st with gaveup := true }, revealAllEvents 0 st.answers)
  else
    (st, [UIEvent.giveUpVote vote playername])

/-- JS `avail_letters.lastIndexOf("")`: index of the last empty slot, `none`
when every slot is occupied (JS returns -1 there). -/
def lastIndexOfEmpty : List (Option Char) → Option Nat
  | [] => none
  | x :: xs =>
    match lastIndexOfEmpty xs with
    | some k => some (k + 1)
    | none => if x = none then some 0 else none

/-- JS `backspaceChar(index)`: pop the last letter of `input_box` if the box is
non-empty and the optional index targets its tail (`length === index + 1`),
transferring the letter to the last empty slot of `avail_letters`.  When no
slot is empty the JS writes to property `-1`, leaving the slots unchanged. -/
def backspaceChar (st : GameState) (index : Option Nat) : GameState × Bool :=
  if 0 < st.input_box.length ∧
      (index = none ∨ some st.input_box.length = index.map (· + 1)) then
    match st.input_box.getLast? with
    | none => (st, true)
    | some c =>
      ({ st with
          input_box := st.input_box.dropLast,
          avail_letters :=
            match lastIndexOfEmpty st.avail_letters with
            | some k => st.avail_letters.set k (some c)
            | none => st.avail_letters }, true)
  else
    (st, false)

/-- JS `enterChar(index)`: move the letter at `avail_letters[index]` (if the
slot exists and is non-empty) to the end of `input_box`, emptying the slot. -/
def enterChar (st : GameState) (index : Nat) : GameState × Bool :=
  match st.avail_letters[index]? with
  | some (some c) =>
    ({ st with
        input_box := st.input_box ++ [c],
        avail_letters := st.avail_letters.set index none }, true)
  | _ => (st, false)

/-- A user action on the letter pool / input buffer. -/
inductive Op where
  | enter (i : Nat)
  | backspace (i : Option Nat)
deriving DecidableEq, Repr

/-- Apply one pool/buffer action, discarding the success flag. -/
def stepOp (st : GameState) : Op → GameState
  | .enter i => (enterChar st i).1
  | .backspace i => (backspaceChar st i).1

/-- Apply a sequence of pool/buffer actions. -/
def applyOps (st : GameState) (ops : List Op) : GameState :=
  ops.foldl stepOp st

/-- Apply a sequence of word guesses (claims), discarding emitted events. -/
def applyGuesses (st : GameState) (gs : List (String × Claimant)) : GameState :=
  gs.foldl (fun s p => (onWordGuess s p.1 p.2).1) st

/-- Number of occupied slots of the letter pool. -/
def occupied (l : List (Option Char)) : Nat :=
  l.countP (fun s => s.isSome)

/-- All ways of picking one element out of a list, as (picked, rest) pairs in
index order: the body of `permute`'s loop (`input.splice(i, 1)`). -/
def selections : List α → List (α × List α)
  | [] => []
  | x :: xs => (x, xs) :: (selections xs).map (fun p => (p.1, x :: p.2))

/-- The recursion of `permute`, with the list length as structural fuel: pick
each element in turn, emit the accumulated choice when the rest is empty,
otherwise recurse on the rest. -/
def permuteAux : Nat → List α → List (List α)
  | 0, _ => []
  | fuel + 1, l =>
    (selections l).flatMap (fun p =>
      if p.2.isEmpty then [[p.1]] else (permuteAux fuel p.2).map (p.1 :: ·))

/-- JS `permute(input)`: every permutation of the input, in the enumeration
order of the JS recursion (duplicates kept for repeated letters). -/
def permute (l : List α) : List (List α) :=
  permuteAux l.length l

/-- The loop of `uniq_fast` with its `seen` set. -/
def uniqFastAux [DecidableEq α] : List α → List α → List α
  | [], _ => []
  | x :: xs, seen => if x ∈ seen then uniqFastAux xs seen else x :: uniqFastAux xs (x :: seen)

/-- JS `uniq_fast(a)`: keep the first occurrence of each element. -/
def uniq_fast [DecidableEq α] (a : List α) : List α :=
  uniqFastAux a []

/-- JS `getUniqPermutations(list, maxLen)`: permutations truncated to their
first `maxLen` elements, deduplicated. -/
def getUniqPermutations [DecidableEq α] (list : List α) (maxLen : Nat) : List (List α) :=
  uniq_fast ((permute list).map (fun l => l.take maxLen))

/-- One word group of `createGame`'s loop body for target length `i`: join
the truncated permutations, keep the ones present in the dictionary, sort.
JS `.sort()` is an unspecified comparison sort; the group elements are
pairwise distinct, so every correct sort yields the same list and insertion
sort is a faithful model of it. -/
def wordGroup (dict : List String) (baseWord : List Char) (i : Nat) : List String :=
  (((getUniqPermutations baseWord i).map (fun a => String.mk a)).filter
    (fun s => dict.contains s)).insertionSort (fun a b => strLeB a b = true)

/-- Swap two positions of a list (the loop body of `shuffle`); positions are
always in range when called from `shuffle`. -/
def swapL (a : List α) (i j : Nat) : List α :=
  match a[i]?, a[j]? with
  | some x, some y => (a.set i y).set j x
  | _, _ => a

/-- The Fisher-Yates loop of `shuffle`, from index `i` down to 1; the random
index `j ≤ i` is drawn from the oracle `rnd`. -/
def fyAux (rnd : Nat → Nat) : Nat → List α → List α
  | 0, a => a
  | i + 1, a => fyAux rnd i (swapL a (i + 1) (rnd (i + 1) % (i + 2)))

/-- JS `shuffle(array)` with an explicit randomness oracle. -/
def shuffle (rnd : Nat → Nat) (a : List α) : List α :=
  fyAux rnd (a.length - 1) a

/-- JS `createGame(dictionary)`: lower-case the dictionary, pick a six-letter
base word (the random pick is the explicit `pick` index; `none` models the
JS crash on an out-of-range pick), derive the four word groups, and reset
the per-game state.  `score` and `mp_scores` are not reset. -/
def createGame (st : GameState) (dictionary : List String) (pick : Nat) (rnd : Nat → Nat) :
    Option GameState :=
  let dict := dictionary.map toLowerStr
  let possibilities := dict.filter (fun s => s.data.length = 6)
  match possibilities[pick]? with
  | none => none
  | some bw =>
    let baseWord := bw.toList
    let gamewords := [3, 4, 5, 6].map (fun i => wordGroup dict baseWord i)
    some { st with
      answers := gamewords.map (fun a => a.map (fun b => (b, Claimant.unclaimed)))
      avail_letters := (shuffle rnd baseWord).map some
      input_box := []
      gaveup := false }

/-- Callback invocations of the joiner connection handler (multiplayer.js),
in invocation order. -/
inductive CB where
  | noLobbyError
  | onNameTaken
  | onPlayerJoin (n : String)
  | onPlayerQuit (n : String)
  | makeGame (ws : List String)
deriving DecidableEq, Repr

/-- The joiner connection state: the handler's `state` variable (0 =
awaiting lobby ack, 1 = awaiting name ack, 2 = awaiting roster, 3 =
awaiting word list) and the module-level `players` list. -/
structure JoinerSM where
  state : Nat
  players : List String
deriving DecidableEq, Repr

/-- The module-level `onPlayerJoin`: fire the callback and push the name. -/
def mpJoin (players : List String) (n : String) : List String :=
  players ++ [n]

/-- The module-level `onPlayerQuit`: `players.splice(players.indexOf(name), 1)`.
For an absent name, `indexOf` gives -1 and `splice(-1, 1)` drops the last
element. -/
def mpQuit (players : List String) (n : String) : List String :=
  if n ∈ players then players.erase n else players.dropLast

/-- The roster-processing block of the joiner handler (`state === 2`): a
token with a trailing underscore is a join immediately followed by a quit
of the stripped name; any other token is a join.  Returns the new players
list and the fired callbacks. -/
def processRoster (players : List String) (tokens : List String) :
    List String × List CB :=
  tokens.foldl
    (fun acc n =>
      if endsUnderscore n then
        let n' := dropLastStr n
        (mpQuit (mpJoin acc.1 n') n', acc.2 ++ [CB.onPlayerJoin n', CB.onPlayerQuit n'])
      else
        (mpJoin acc.1 n, acc.2 ++ [CB.onPlayerJoin n]))
    (players, [])

/-- One inbound message through the joiner's `onmessage` handler.  The first
`if/else if` chain may advance `state`; the *second* chain (an independent
`if`, not an `else if` of the first) then tests the updated `state`, so a
message that moves 1 → 2 is immediately consumed as the roster payload. -/
def joinStep (sm : JoinerSM) (msg : String) : JoinerSM × List CB :=
  let s1 : Nat × List CB :=
    if sm.state = 0 then
      if msg = ":noexist" then (0, [CB.noLobbyError])
      else if msg = ":ok" then (1, [])
      else (0, [])
    else if sm.state = 1 then
      if msg = ":badname" then (1, [])
      else if msg = ":taken" then (1, [CB.onNameTaken])
      else (2, [])
    else (sm.state, [])
  if s1.1 = 2 then
    let r := processRoster sm.players (splitSp msg)
    (⟨3, r.1⟩, s1.2 ++ r.2)
  else if s1.1 = 3 then
    (⟨s1.1, sm.players⟩, s1.2 ++ [CB.makeGame (splitSp msg)])
  else
    (⟨s1.1, sm.players⟩, s1.2)

/-- The `makeGame` callback wired in by gamestate.js (`mp_callbacks`): the
received word list is handed to `createGame` as the dictionary. -/
def makeGameCB (st : GameState) (gamewords : List String) (pick : Nat) (rnd : Nat → Nat) :
    Option GameState :=
  createGame st gamewords pick rnd

/-- The joiner's handling of the message received in the word-list state
(`state === 3`): split on spaces and run the `makeGame` callback. -/
def joinerOnWordList (st : GameState) (msg : String) (pick : Nat) (rnd : Nat → Nat) :
    Option GameState :=
  makeGameCB st (splitSp msg) pick rnd

/-- The `onPlayerJoin` callback of `mp_callbacks`: when the joining name is
the local player's own, the player's multiplayer score entry is set to the
current aggregate score. -/
def mpOnPlayerJoin (st : GameState) (localName : Option String) (name : String) : GameState :=
  if localName = some name then
    { st with mp_scores := mpSet st.mp_scores name st.score }
  else
    st

/-- Claim-side reading of the roster rule: the players list after applying
each token as a join, or a join-then-quit for marker-suffixed tokens. -/
def applyRosterPlayers (players : List String) (tokens : List String) : List String :=
  tokens.foldl
    (fun ps n =>
      if endsUnderscore n then mpQuit (mpJoin ps (dropLastStr n)) (dropLastStr n)
      else mpJoin ps n)
    players

/-- Claim-side reading of the roster rule: the callbacks fired per token. -/
def rosterEvents (tokens : List String) : List CB :=
  tokens.flatMap (fun n =>
    if endsUnderscore n then [CB.onPlayerJoin (dropLastStr n), CB.onPlayerQuit (dropLastStr n)]
    else [CB.onPlayerJoin n])

/-! ### Association-list lemmas for `mp_scores` -/

theorem mpGet?_mpSet_self (mp : List (String × Nat)) (n : String) (v : Nat) :
    mpGet? (mpSet mp n v) n = some v := by
  induction mp with
  | nil => simp [mpSet, mpGet?]
  | cons p ps ih =>
    by_cases h : p.1 = n
    · simp [mpSet, h, mpGet?]
    · simp [mpSet, h, mpGet?, ih]

theorem mpGet?_mpSet_ne (mp : List (String × Nat)) (n m : String) (v : Nat) (h : m ≠ n) :
    mpGet? (mpSet mp n v) m = mpGet? mp m := by
  have hnm : ¬n = m := fun hh => h hh.symm
  induction mp with
  | nil => simp [mpSet, mpGet?, hnm]
  | cons p ps ih =>
    by_cases hp : p.1 = n
    · simp [mpSet, hp, mpGet?, hnm]
    · simp [mpSet, hp, mpGet?, ih]

theorem mpGet0_addPlayerScore_self (mp : List (String × Nat)) (pts : Nat) (n : String) :
    mpGet0 (addPlayerScore mp pts n) n = mpGet0 mp n + pts := by
  unfold addPlayerScore
  cases hv : mpGet? mp n with
  | none => simp [mpGet0, hv, mpGet?_mpSet_self]
  | some v =>
    by_cases h0 : v = 0
    · subst h0; simp [mpGet0, hv, mpGet?_mpSet_self]
    · simp [mpGet0, hv, h0, mpGet?_mpSet_self]

theorem mpGet0_addPlayerScore_ne (mp : List (String × Nat)) (pts : Nat) (n m : String)
    (h : m ≠ n) : mpGet0 (addPlayerScore mp pts n) m = mpGet0 mp m := by
  unfold addPlayerScore
  cases hv : mpGet? mp n with
  | none => simp [mpGet0, mpGet?_mpSet_ne mp n m _ h]
  | some v =>
    by_cases h0 : v = 0
    · simp [h0, mpGet0, mpGet?_mpSet_ne mp n m _ h]
    · simp [h0, mpGet0, mpGet?_mpSet_ne mp n m _ h]

/-! ### `checkWord` lemmas -/

theorem checkWordGroup_none_iff (g : List Entry) (w : String) :
    checkWordGroup g w = none ↔ ∀ e ∈ g, e.1 ≠ w := by
  induction g with
  | nil => simp [checkWordGroup]
  | cons e es ih =>
    by_cases h : e.1 = w
    · simp [checkWordGroup, h]
    · simp only [checkWordGroup, if_neg h, Option.map_eq_none', List.mem_cons]
      constructor
      · intro hn a ha
        rcases ha with rfl | ha
        · exact h
        · exact (ih.mp hn) a ha
      · intro hall
        exact ih.mpr (fun a ha => hall a (Or.inr ha))

theorem checkWord_none_iff (ans : Answers) (w : String) :
    checkWord ans w = none ↔ ∀ g ∈ ans, ∀ e ∈ g, e.1 ≠ w := by
  induction ans with
  | nil => simp [checkWord]
  | cons g gs ih =>
    cases hg : checkWordGroup g w with
    | some p =>
      obtain ⟨j, c⟩ := p
      simp only [checkWord, hg]
      constructor
      · intro h
        exact absurd h (Option.some_ne_none _)
      · intro hall
        have hnone : checkWordGroup g w = none :=
          (checkWordGroup_none_iff g w).mpr (hall g (by simp))
        rw [hg] at hnone
        exact absurd hnone (Option.some_ne_none _)
    | none =>
      simp only [checkWord, hg, Option.map_eq_none', List.mem_cons]
      constructor
      · intro h a ha
        rcases ha with rfl | ha
        · exact (checkWordGroup_none_iff _ w).mp hg
        · exact (ih.mp h) a ha
      · intro hall
        exact ih.mpr (fun a ha => hall a (Or.inr ha))

theorem checkWordGroup_some_entry (g : List Entry) (w : String) (j : Nat) (c : Claimant)
    (h : checkWordGroup g w = some (j, c)) : g[j]? = some (w, c) := by
  induction g generalizing j with
  | nil => simp [checkWordGroup] at h
  | cons e es ih =>
    by_cases he : e.1 = w
    · rw [checkWordGroup, if_pos he] at h
      have h' : ((0 : Nat), e.2) = (j, c) := Option.some.inj h
      simp only [Prod.mk.injEq] at h'
      obtain ⟨rfl, rfl⟩ := h'
      simp only [List.getElem?_cons_zero]
      rw [← he]
    · rw [checkWordGroup, if_neg he, Option.map_eq_some'] at h
      obtain ⟨⟨j', c'⟩, hj', heq⟩ := h
      simp only [Prod.mk.injEq] at heq
      obtain ⟨rfl, rfl⟩ := heq
      simpa using ih j' hj'

theorem checkWord_some_entry (ans : Answers) (w : String) (i j : Nat) (c : Claimant)
    (h : checkWord ans w = some (i, j, c)) : ans[i]?.bind (fun g => g[j]?) = some (w, c) := by
  induction ans generalizing i with
  | nil => simp [checkWord] at h
  | cons g gs ih =>
    cases hg : checkWordGroup g w with
    | some p =>
      obtain ⟨j₀, c₀⟩ := p
      rw [checkWord, hg] at h
      have h' : ((0 : Nat), j₀, c₀) = (i, j, c) := Option.some.inj h
      simp only [Prod.mk.injEq] at h'
      obtain ⟨rfl, rfl, rfl⟩ := h'
      simpa using checkWordGroup_some_entry g w j₀ c₀ hg
    | none =>
      rw [checkWord, hg, Option.map_eq_some'] at h
      obtain ⟨⟨i', j', c'⟩, hi', heq⟩ := h
      simp only [Prod.mk.injEq] at heq
      obtain ⟨rfl, rfl, rfl⟩ := heq
      simpa using ih i' hi'

theorem checkWordGroup_modify (g : List Entry) (w : String) (j : Nat) (c : Claimant)
    (p : Claimant) (h : checkWordGroup g w = some (j, c)) :
    checkWordGroup (listModify g j (fun e => (e.1, p))) w = some (j, p) := by
  induction g generalizing j with
  | nil => simp [checkWordGroup] at h
  | cons e es ih =>
    by_cases he : e.1 = w
    · rw [checkWordGroup, if_pos he] at h
      have h' : ((0 : Nat), e.2) = (j, c) := Option.some.inj h
      simp only [Prod.mk.injEq] at h'
      obtain ⟨rfl, rfl⟩ := h'
      simp [listModify, checkWordGroup, he]
    · rw [checkWordGroup, if_neg he, Option.map_eq_some'] at h
      obtain ⟨⟨j', c'⟩, hj', heq⟩ := h
      simp only [Prod.mk.injEq] at heq
      obtain ⟨rfl, rfl⟩ := heq
      simp [listModify, checkWordGroup, he, ih j' hj']

theorem checkWord_modify (ans : Answers) (w : String) (i j : Nat) (c : Claimant) (p : Claimant)
    (h : checkWord ans w = some (i, j, c)) :
    checkWord (listModify ans i (fun g => listModify g j (fun e => (e.1, p)))) w
      = some (i, j, p) := by
  induction ans generalizing i with
  | nil => simp [checkWord] at h
  | cons g gs ih =>
    cases hg : checkWordGroup g w with
    | some q =>
      obtain ⟨j₀, c₀⟩ := q
      rw [checkWord, hg] at h
      have h' : ((0 : Nat), j₀, c₀) = (i, j, c) := Option.some.inj h
      simp only [Prod.mk.injEq] at h'
      obtain ⟨rfl, rfl, rfl⟩ := h'
      simp [listModify, checkWord, checkWordGroup_modify g w j₀ c₀ p hg]
    | none =>
      rw [checkWord, hg, Option.map_eq_some'] at h
      obtain ⟨⟨i', j', c'⟩, hi', heq⟩ := h
      simp only [Prod.mk.injEq] at heq
      obtain ⟨rfl, rfl, rfl⟩ := heq
      simp [listModify, checkWord, hg, ih i' hi']

/-! ### `onWordGuess` case lemmas -/

theorem onWordGuess_notfound (st : GameState) (w : String) (p : Claimant)
    (h : checkWord st.answers w = none) : onWordGuess st w p = (st, []) := by
  unfold onWordGuess
  rw [h]

theorem onWordGuess_claimed (st : GameState) (w : String) (p : Claimant) (i j : Nat)
    (c : Claimant) (h : checkWord st.answers w = some (i, j, c)) (hc : c.truthy = true) :
    onWordGuess st w p = (st, []) := by
  unfold onWordGuess
  rw [h]
  simp [hc]

theorem onWordGuess_reveal_shape (st : GameState) (w : String) (p : Claimant) (i j : Nat)
    (c : Claimant) (hfound : checkWord st.answers w = some (i, j, c)) (hc : c.truthy = false) :
    ((onWordGuess st w p).1).answers
        = listModify st.answers i (fun g => listModify g j (fun e => (e.1, p))) ∧
    (onWordGuess st w p).2 = [UIEvent.revealWord w i j p] ∧
    ((onWordGuess st w p).1).gaveup = st.gaveup ∧
    ((onWordGuess st w p).1).avail_letters = st.avail_letters ∧
    ((onWordGuess st w p).1).input_box = st.input_box := by
  unfold onWordGuess
  rw [hfound]
  simp only [hc, Bool.false_eq_true, if_false]
  split_ifs <;> simp

theorem onWordGuess_gaveup_stable (st : GameState) (w : String) (p : Claimant)
    (hg : st.gaveup = true) :
    ((onWordGuess st w p).1).score = st.score ∧ ((onWordGuess st w p).1).gaveup = true ∧
    ((onWordGuess st w p).1).mp_scores = st.mp_scores := by
  unfold onWordGuess
  cases h : checkWord st.answers w with
  | none => exact ⟨rfl, hg, rfl⟩
  | some t =>
    obtain ⟨i, j, c⟩ := t
    by_cases hc : c.truthy
    · simp [hc, hg]
    · simp [hc, hg]

/-! ### Claim C10: self-join initializes the player's multiplayer score -/

/-- C10: when the local player's own name joins, that player's entry in the
multiplayer score map is set to the current aggregate score (carrying solo
points into the scoreboard); a join of any other name leaves the state
unchanged. -/
theorem C10_self_join_initializes_score (st : GameState) (localName : Option String)
    (name : String) :
    (localName = some name →
      mpGet? (mpOnPlayerJoin st localName name).mp_scores name = some st.score ∧
      ∀ m, m ≠ name →
        mpGet? (mpOnPlayerJoin st localName name).mp_scores m = mpGet? st.mp_scores m) ∧
    (localName ≠ some name → mpOnPlayerJoin st localName name = st) := by
  constructor
  · intro h
    unfold mpOnPlayerJoin
    rw [if_pos h]
    exact ⟨mpGet?_mpSet_self _ _ _, fun m hm => mpGet?_mpSet_ne _ _ _ _ hm⟩
  · intro h
    unfold mpOnPlayerJoin
    rw [if_neg h]

/-- Witness for C10 at a concrete state: a solo score of 70 carries over for
the local name "al", and a join of "bob" changes nothing. -/
theorem C10_witness :
    mpGet? (mpOnPlayerJoin ⟨[], [], [], false, 70, []⟩ (some "al") "al").mp_scores "al"
        = some 70 ∧
    mpOnPlayerJoin ⟨[], [], [], false, 70, []⟩ (some "al") "bob"
        = ⟨[], [], [], false, 70, []⟩ :=
  ⟨((C10_self_join_initializes_score ⟨[], [], [], false, 70, []⟩ (some "al") "al").1 rfl).1,
   (C10_self_join_initializes_score ⟨[], [], [], false, 70, []⟩ (some "al") "bob").2
     (by decide)⟩

/-! ### Claim C6: `lookup` is in fact case-sensitive -/

/-- C6 counterexample: with the ledger containing "den", looking up the
case-variant "DEN" returns `NotFound` while "den" is found, so `checkWord`
is not case-insensitive. -/
theorem C6_counterexample :
    checkWord [[("den", Claimant.unclaimed)]] "DEN" = none ∧
    checkWord [[("den", Claimant.unclaimed)]] "den" = some (0, 0, Claimant.unclaimed) := by
  constructor <;> decide

/-- C6 amended: `lookup` performs a case-sensitive exact match across all
groups: it returns `NotFound` exactly when no entry's word equals the query
exactly, and a found triple points at an entry whose word is the query. -/
theorem C6_amended_lookup_exact (ans : Answers) (w : String) :
    (checkWord ans w = none ↔ ∀ g ∈ ans, ∀ e ∈ g, e.1 ≠ w) ∧
    (∀ i j c, checkWord ans w = some (i, j, c) → ans[i]?.bind (fun g => g[j]?) = some (w, c)) :=
  ⟨checkWord_none_iff ans w, fun i j c h => checkWord_some_entry ans w i j c h⟩

/-- Witness for C6's amended statement at a concrete ledger. -/
theorem C6_amended_witness :
    checkWord [[("den", Claimant.unclaimed)]] "cat" = none ∧
    ([[("den", Claimant.unclaimed)]] : Answers)[0]?.bind (fun g => g[0]?)
      = some ("den", Claimant.unclaimed) :=
  ⟨(C6_amended_lookup_exact [[("den", Claimant.unclaimed)]] "cat").1.mpr (by decide),
   (C6_amended_lookup_exact [[("den", Claimant.unclaimed)]] "den").2 0 0 Claimant.unclaimed
     (by decide)⟩

/-! ### Claim C5: claim idempotence -/

/-- C5 counterexample: the JS guard `if (a[2])` tests truthiness, and the
empty player name is falsy, so after a successful claim by `player ""` a
second claim overwrites the claimant and adds points again, contradicting
both "the claimant stays whatever the first successful call set" and
"scores change only on the first successful claim". -/
theorem C5_counterexample :
    (onWordGuess ((onWordGuess ⟨[[("den", Claimant.unclaimed)]], [], [], false, 0, []⟩
        "den" (Claimant.player "")).1) "den" (Claimant.player "bob")).1.answers
      = [[("den", Claimant.player "bob")]] ∧
    (onWordGuess ((onWordGuess ⟨[[("den", Claimant.unclaimed)]], [], [], false, 0, []⟩
        "den" (Claimant.player "")).1) "den" (Claimant.player "bob")).1.score
      = 180 ∧
    (onWordGuess ⟨[[("den", Claimant.unclaimed)]], [], [], false, 0, []⟩
        "den" (Claimant.player "")).1.score
      = 90 := by
  refine ⟨?_, ?_, ?_⟩ <;> decide

/-- C5 amended: for a first claimant whose JS value is truthy (the local
sentinel, the system sentinel, or a non-empty player name), a successful
claim is permanent: a second claim of the same word by anyone is a complete
no-op (claimant, scores and all other state unchanged), and a claim of a
word absent from the ledger is a complete no-op as well. -/
theorem C5_amended_claim_idempotent (st : GameState) (w : String) (p1 : Claimant)
    (h1 : p1.truthy = true) (i j : Nat) (c : Claimant)
    (hfound : checkWord st.answers w = some (i, j, c)) (hc : c.truthy = false) :
    checkWord ((onWordGuess st w p1).1).answers w = some (i, j, p1) ∧
    (∀ p2, onWordGuess ((onWordGuess st w p1).1) w p2 = ((onWordGuess st w p1).1, [])) ∧
    (∀ w' p', checkWord st.answers w' = none → onWordGuess st w' p' = (st, [])) := by
  have hans := (onWordGuess_reveal_shape st w p1 i j c hfound hc).1
  have hcw : checkWord ((onWordGuess st w p1).1).answers w = some (i, j, p1) := by
    rw [hans]
    exact checkWord_modify st.answers w i j c p1 hfound
  refine ⟨hcw, ?_, ?_⟩
  · intro p2
    exact onWordGuess_claimed _ w p2 i j p1 hcw h1
  · intro w' p' hnone
    exact onWordGuess_notfound st w' p' hnone

/-- Witness for C5's amended statement: "bob" claims "den" in a fresh
one-entry ledger; a re-claim by "eve" is a no-op and a claim of an absent
word is a no-op. -/
theorem C5_amended_witness :
    checkWord ((onWordGuess ⟨[[("den", Claimant.unclaimed)]], [], [], false, 0, []⟩
        "den" (Claimant.player "bob")).1).answers "den"
      = some (0, 0, Claimant.player "bob") ∧
    onWordGuess ((onWordGuess ⟨[[("den", Claimant.unclaimed)]], [], [], false, 0, []⟩
        "den" (Claimant.player "bob")).1) "den" (Claimant.player "eve")
      = ((onWordGuess ⟨[[("den", Claimant.unclaimed)]], [], [], false, 0, []⟩
          "den" (Claimant.player "bob")).1, []) ∧
    onWordGuess ⟨[[("den", Claimant.unclaimed)]], [], [], false, 0, []⟩
        "cat" Claimant.localPlayer
      = (⟨[[("den", Claimant.unclaimed)]], [], [], false, 0, []⟩, []) := by
  have h := C5_amended_claim_idempotent ⟨[[("den", Claimant.unclaimed)]], [], [], false, 0, []⟩
    "den" (Claimant.player "bob") (by decide) 0 0 Claimant.unclaimed (by decide) (by decide)
  exact ⟨h.1, h.2.1 (Claimant.player "eve"), h.2.2 "cat" Claimant.localPlayer (by decide)⟩

/-! ### Claim C4: scoring on reveal -/

/-- C4: when a claim reveals a previously-Unclaimed entry and the session
has not been given up, the aggregate score rises by `pointvalues` of the
word length for every claimant except the system sentinel (whose claim
changes no score at all), and exactly the named-player claimants
additionally credit their own multiplayer score entry by the same amount. -/
theorem C4_scoring_on_reveal (st : GameState) (w : String) (i j : Nat) (cl : Claimant)
    (hne : cl ≠ Claimant.unclaimed)
    (hfound : checkWord st.answers w = some (i, j, Claimant.unclaimed))
    (hgu : st.gaveup = false) (hlen3 : 3 ≤ w.length) (hlen6 : w.length ≤ 6) :
    (cl = Claimant.system →
      ((onWordGuess st w cl).1).score = st.score ∧
      ((onWordGuess st w cl).1).mp_scores = st.mp_scores) ∧
    (cl ≠ Claimant.system →
      ((onWordGuess st w cl).1).score = st.score + pointvalues w.length) ∧
    (∀ n, cl = Claimant.player n →
      mpGet0 ((onWordGuess st w cl).1).mp_scores n
        = mpGet0 st.mp_scores n + pointvalues w.length) ∧
    ((cl = Claimant.localPlayer ∨ cl = Claimant.system) →
      ((onWordGuess st w cl).1).mp_scores = st.mp_scores) := by
  unfold onWordGuess
  rw [hfound]
  simp only [Claimant.truthy, Bool.false_eq_true, if_false, hgu]
  cases cl with
  | unclaimed => exact absurd rfl hne
  | localPlayer => simp
  | system => simp
  | player n =>
    simp only [reduceCtorEq, ne_eq, not_false_iff, if_true, if_pos]
    refine ⟨fun h => absurd h (by simp), fun _ => rfl, ?_, fun h => by rcases h with h | h <;> simp at h⟩
    intro m hm
    have : n = m := by
      injection hm
    subst this
    simpa [claimantKey] using mpGet0_addPlayerScore_self st.mp_scores (pointvalues w.length) n

/-- Witness for C4 at a concrete state: solo score 7 and an existing "bob"
entry of 5; "bob" claims "den" and both scores rise by 90. -/
theorem C4_witness :
    ((onWordGuess ⟨[[("den", Claimant.unclaimed)]], [], [], false, 7, [("bob", 5)]⟩
        "den" (Claimant.player "bob")).1).score = 7 + pointvalues 3 ∧
    mpGet0 ((onWordGuess ⟨[[("den", Claimant.unclaimed)]], [], [], false, 7, [("bob", 5)]⟩
        "den" (Claimant.player "bob")).1).mp_scores "bob" = 5 + pointvalues 3 := by
  have h := C4_scoring_on_reveal
    ⟨[[("den", Claimant.unclaimed)]], [], [], false, 7, [("bob", 5)]⟩
    "den" 0 0 (Claimant.player "bob") (by decide) (by decide) rfl (by decide) (by decide)
  exact ⟨h.2.1 (by decide), h.2.2.1 "bob" rfl⟩

/-! ### Claim C3: local give-up -/

theorem mem_revealGroupEvents (i j0 : Nat) (g : List Entry) (j : Nat) (w : String)
    (c : Claimant) (h : g[j]? = some (w, c)) :
    UIEvent.revealWord w i (j0 + j) Claimant.system ∈ revealGroupEvents i j0 g := by
  induction g generalizing j0 j with
  | nil => simp at h
  | cons e es ih =>
    cases j with
    | zero =>
      simp only [List.getElem?_cons_zero, Option.some.injEq] at h
      subst h
      simp [revealGroupEvents]
    | succ j' =>
      simp only [List.getElem?_cons_succ] at h
      have := ih (j0 + 1) j' h
      simp only [revealGroupEvents, List.mem_cons]
      right
      have harith : j0 + (j' + 1) = j0 + 1 + j' := by omega
      rw [harith]
      exact this

theorem mem_revealAllEvents (k : Nat) (ans : Answers) (i j : Nat) (w : String) (c : Claimant)
    (h : ans[i]?.bind (fun g => g[j]?) = some (w, c)) :
    UIEvent.revealWord w (k + i) j Claimant.system ∈ revealAllEvents k ans := by
  induction ans generalizing k i with
  | nil => simp at h
  | cons g gs ih =>
    cases i with
    | zero =>
      simp only [List.getElem?_cons_zero, Option.bind_some] at h
      simp only [revealAllEvents, List.mem_append]
      left
      simpa using mem_revealGroupEvents (k + 0) 0 g j w c h
    | succ i' =>
      simp only [List.getElem?_cons_succ] at h
      simp only [revealAllEvents, List.mem_append]
      right
      have := ih (k + 1) i' h
      have harith : k + (i' + 1) = k + 1 + i' := by omega
      rw [harith]
      exact this

theorem applyGuesses_gaveup_score (st : GameState) (hg : st.gaveup = true)
    (gs : List (String × Claimant)) :
    (applyGuesses st gs).score = st.score ∧ (applyGuesses st gs).gaveup = true := by
  induction gs generalizing st with
  | nil => exact ⟨rfl, hg⟩
  | cons p ps ih =>
    have h1 := onWordGuess_gaveup_stable st p.1 p.2 hg
    have h2 := ih ((onWordGuess st p.1 p.2).1) h1.2.1
    have hstep : applyGuesses st (p :: ps) = applyGuesses ((onWordGuess st p.1 p.2).1) ps := rfl
    rw [hstep]
    exact ⟨h2.1.trans h1.1, h2.2⟩

/-- C3 counterexample: after the local give-up, the previously-Unclaimed
ledger entry is still Unclaimed, not ClaimedBySystem — `revealAll` only
emits UI events and never writes the claimant field. -/
theorem C3_counterexample :
    ((giveUp ⟨[[("den", Claimant.unclaimed)]], [], [], false, 0, []⟩ true none).1).answers
      = [[("den", Claimant.unclaimed)]] ∧
    ([[("den", Claimant.unclaimed)]] : Answers) ≠ [[("den", Claimant.system)]] := by
  refine ⟨?_, ?_⟩ <;> decide

/-- C3 amended: the local give-up leaves the ledger (and the aggregate
score) unchanged, sets the gave-up flag, emits a reveal notification with
the system claimant for every ledger entry — in particular for each
previously-Unclaimed one — and no later claim changes the score. -/
theorem C3_amended_giveup_local (st : GameState) :
    ((giveUp st true none).1).answers = st.answers ∧
    ((giveUp st true none).1).score = st.score ∧
    ((giveUp st true none).1).gaveup = true ∧
    (∀ i j w c, st.answers[i]?.bind (fun g => g[j]?) = some (w, c) →
      UIEvent.revealWord w i j Claimant.system ∈ (giveUp st true none).2) ∧
    (∀ gs, (applyGuesses ((giveUp st true none).1) gs).score = st.score) := by
  have hdef : giveUp st true none = ({ st with gaveup := true }, revealAllEvents 0 st.answers) := by
    simp [giveUp]
  rw [hdef]
  refine ⟨rfl, rfl, rfl, ?_, ?_⟩
  · intro i j w c h
    simpa using mem_revealAllEvents 0 st.answers i j w c h
  · intro gs
    exact (applyGuesses_gaveup_score { st with gaveup := true } rfl gs).1

/-- Witness for C3's amended statement at a concrete one-entry ledger. -/
theorem C3_amended_witness :
    ((giveUp ⟨[[("den", Claimant.unclaimed)]], [], [], false, 5, []⟩ true none).1).answers
      = [[("den", Claimant.unclaimed)]] ∧
    UIEvent.revealWord "den" 0 0 Claimant.system
      ∈ (giveUp ⟨[[("den", Claimant.unclaimed)]], [], [], false, 5, []⟩ true none).2 ∧
    (applyGuesses ((giveUp ⟨[[("den", Claimant.unclaimed)]], [], [], false, 5, []⟩
        true none).1) [("den", Claimant.localPlayer)]).score = 5 := by
  have h := C3_amended_giveup_local ⟨[[("den", Claimant.unclaimed)]], [], [], false, 5, []⟩
  exact ⟨h.1, h.2.2.2.1 0 0 "den" Claimant.unclaimed (by decide),
    h.2.2.2.2 [("den", Claimant.localPlayer)]⟩

/-! ### Claim C7: backspace semantics -/

theorem lastIndexOfEmpty_eq_none (l : List (Option Char)) :
    lastIndexOfEmpty l = none ↔ ∀ x ∈ l, x ≠ none := by
  induction l with
  | nil => simp [lastIndexOfEmpty]
  | cons x xs ih =>
    cases h' : lastIndexOfEmpty xs with
    | some k =>
      simp only [lastIndexOfEmpty, h']
      constructor
      · intro hcontra
        exact absurd hcontra (Option.some_ne_none _)
      · intro hall
        have : lastIndexOfEmpty xs = none := ih.mpr (fun y hy => hall y (by simp [hy]))
        rw [h'] at this
        exact absurd this (Option.some_ne_none _)
    | none =>
      simp only [lastIndexOfEmpty, h']
      by_cases hx : x = none
      · simp only [if_pos hx, List.mem_cons]
        constructor
        · intro hcontra
          exact absurd hcontra (Option.some_ne_none _)
        · intro hall
          exact absurd hx (hall x (Or.inl rfl))
      · simp only [if_neg hx, List.mem_cons]
        constructor
        · intro _ y hy
          rcases hy with rfl | hy
          · exact hx
          · exact ih.mp h' y hy
        · intro _
          trivial

theorem lastIndexOfEmpty_spec (l : List (Option Char)) (k : Nat)
    (h : lastIndexOfEmpty l = some k) :
    l[k]? = some none ∧ ∀ m, k < m → l[m]? ≠ some none := by
  induction l generalizing k with
  | nil => simp [lastIndexOfEmpty] at h
  | cons x xs ih =>
    cases h' : lastIndexOfEmpty xs with
    | some k' =>
      rw [lastIndexOfEmpty, h'] at h
      have hk : k = k' + 1 := (Option.some.inj h).symm
      subst hk
      have hspec := ih k' h'
      constructor
      · simpa using hspec.1
      · intro m hm
        cases m with
        | zero => omega
        | succ m' =>
          simp only [List.getElem?_cons_succ]
          exact hspec.2 m' (by omega)
    | none =>
      rw [lastIndexOfEmpty, h'] at h
      by_cases hx : x = none
      · rw [if_pos hx] at h
        have hk : k = 0 := (Option.some.inj h).symm
        subst hk
        subst hx
        constructor
        · simp
        · intro m hm
          cases m with
          | zero => omega
          | succ m' =>
            simp only [List.getElem?_cons_succ]
            cases hy : xs[m']? with
            | none => simp
            | some y =>
              have hymem : y ∈ xs := List.getElem?_mem hy
              have := (lastIndexOfEmpty_eq_none xs).mp h' y hymem
              simp [this]
      · rw [if_neg hx] at h
        exact absurd h (Option.noConfusion)

/-- C7 counterexample: with pool `[empty, 'a', empty]` and buffer `["c"]`,
a backspace stores 'c' in the *highest*-indexed empty slot (index 2), not
the lowest-indexed one (index 0) as the claim states. -/
theorem C7_counterexample :
    ((backspaceChar ⟨[], [none, some 'a', none], ['c'], false, 0, []⟩ none).1).avail_letters
      = [none, some 'a', some 'c'] ∧
    ([none, some 'a', some 'c'] : List (Option Char)) ≠ [some 'c', some 'a', none] := by
  refine ⟨?_, ?_⟩ <;> decide

/-- C7 amended: `backspaceChar(index)` succeeds iff the buffer is non-empty
and the index is omitted or equals the last valid position; on failure the
state is unchanged; on success the last letter is removed from the buffer
and placed into the HIGHEST-indexed empty slot of the pool (`lastIndexOf`),
the pool being unchanged when no slot is empty. -/
theorem C7_amended_backspace (st : GameState) (idx : Option Nat) :
    ((backspaceChar st idx).2 = true ↔
      st.input_box ≠ [] ∧ (idx = none ∨ idx = some (st.input_box.length - 1))) ∧
    ((backspaceChar st idx).2 = false → (backspaceChar st idx).1 = st) ∧
    (∀ ch, st.input_box.getLast? = some ch → (backspaceChar st idx).2 = true →
      ((backspaceChar st idx).1).input_box = st.input_box.dropLast ∧
      ((backspaceChar st idx).1).avail_letters =
        (match lastIndexOfEmpty st.avail_letters with
          | some k => st.avail_letters.set k (some ch)
          | none => st.avail_letters)) ∧
    (∀ k, lastIndexOfEmpty st.avail_letters = some k →
      st.avail_letters[k]? = some none ∧
        ∀ m, k < m → st.avail_letters[m]? ≠ some none) ∧
    (lastIndexOfEmpty st.avail_letters = none → ∀ x ∈ st.avail_letters, x ≠ none) := by
  have hcond : (0 < st.input_box.length ∧
        (idx = none ∨ some st.input_box.length = idx.map (· + 1))) ↔
      (st.input_box ≠ [] ∧ (idx = none ∨ idx = some (st.input_box.length - 1))) := by
    constructor
    · rintro ⟨hl, hi⟩
      refine ⟨List.ne_nil_of_length_pos hl, ?_⟩
      rcases hi with rfl | hi
      · exact Or.inl rfl
      · cases idx with
        | none => exact Or.inl rfl
        | some k =>
          right
          simp only [Option.map_some'] at hi
          have hlen : st.input_box.length = k + 1 := Option.some.inj hi
          have hk : k = st.input_box.length - 1 := by omega
          rw [hk]
    · rintro ⟨hl, hi⟩
      have hpos : 0 < st.input_box.length := List.length_pos_of_ne_nil hl
      refine ⟨hpos, ?_⟩
      rcases hi with rfl | rfl
      · exact Or.inl rfl
      · right
        simp only [Option.map_some']
        have : st.input_box.length - 1 + 1 = st.input_box.length := by omega
        rw [this]
  by_cases hc : 0 < st.input_box.length ∧
      (idx = none ∨ some st.input_box.length = idx.map (· + 1))
  · have hne : st.input_box ≠ [] := List.ne_nil_of_length_pos hc.1
    obtain ⟨ch0, hch0⟩ := Option.ne_none_iff_exists'.mp
      (mt List.getLast?_eq_none_iff.mp hne)
    have hres : backspaceChar st idx =
        ({ st with
            input_box := st.input_box.dropLast,
            avail_letters :=
              (match lastIndexOfEmpty st.avail_letters with
                | some k => st.avail_letters.set k (some ch0)
                | none => st.avail_letters) }, true) := by
      unfold backspaceChar
      rw [if_pos hc, hch0]
    refine ⟨?_, ?_, ?_, ?_, ?_⟩
    · rw [hres]
      simpa using hcond.mp hc
    · rw [hres]
      intro hcontra
      exact absurd hcontra (by simp)
    · intro ch hch _
      have : ch0 = ch := by
        rw [hch0] at hch
        exact Option.some.inj hch
      subst this
      rw [hres]
      exact ⟨rfl, rfl⟩
    · exact fun k hk => lastIndexOfEmpty_spec st.avail_letters k hk
    · exact fun hnone => (lastIndexOfEmpty_eq_none st.avail_letters).mp hnone
  · have hres : backspaceChar st idx = (st, false) := by
      unfold backspaceChar
      rw [if_neg hc]
    refine ⟨?_, ?_, ?_, ?_, ?_⟩
    · rw [hres]
      constructor
      · intro hcontra
        exact absurd hcontra (by simp)
      · intro h
        exact absurd (hcond.mpr h) hc
    · rw [hres]
      intro _
      rfl
    · intro ch _ htrue
      rw [hres] at htrue
      exact absurd htrue (by simp)
    · exact fun k hk => lastIndexOfEmpty_spec st.avail_letters k hk
    · exact fun hnone => (lastIndexOfEmpty_eq_none st.avail_letters).mp hnone

/-- Witness for C7's amended statement: pool `[empty, 'a', empty]`, buffer
`["c"]`, no index: the backspace succeeds, empties the buffer and fills
slot 2 (the highest empty one). -/
theorem C7_amended_witness :
    (backspaceChar ⟨[], [none, some 'a', none], ['c'], false, 0, []⟩ none).2 = true ∧
    ((backspaceChar ⟨[], [none, some 'a', none], ['c'], false, 0, []⟩ none).1).input_box
      = [] ∧
    ((backspaceChar ⟨[], [none, some 'a', none], ['c'], false, 0, []⟩ none).1).avail_letters
      = [none, some 'a', some 'c'] := by
  have h := C7_amended_backspace ⟨[], [none, some 'a', none], ['c'], false, 0, []⟩ none
  have htrue : (backspaceChar ⟨[], [none, some 'a', none], ['c'], false, 0, []⟩ none).2
      = true := h.1.mpr ⟨by decide, Or.inl rfl⟩
  have hsucc := h.2.2.1 'c' (by decide) htrue
  exact ⟨htrue, hsucc.1, hsucc.2⟩

/-! ### Claim C9: name-ack fallthrough in the joiner handshake -/

theorem roster_foldl_spec (tokens : List String) (ps : List String) (evs0 : List CB) :
    tokens.foldl
      (fun acc n =>
        if endsUnderscore n then
          let n' := dropLastStr n
          (mpQuit (mpJoin acc.1 n') n', acc.2 ++ [CB.onPlayerJoin n', CB.onPlayerQuit n'])
        else
          (mpJoin acc.1 n, acc.2 ++ [CB.onPlayerJoin n]))
      (ps, evs0)
      = (applyRosterPlayers ps tokens, evs0 ++ rosterEvents tokens) := by
  induction tokens generalizing ps evs0 with
  | nil => simp [applyRosterPlayers, rosterEvents]
  | cons t ts ih =>
    by_cases h : endsUnderscore t
    · simp only [List.foldl_cons, if_pos h, ih, applyRosterPlayers, rosterEvents,
        List.flatMap_cons, List.append_assoc]
    · simp only [List.foldl_cons, if_neg h, ih, applyRosterPlayers, rosterEvents,
        List.flatMap_cons, List.append_assoc]

theorem processRoster_eq (ps : List String) (tokens : List String) :
    processRoster ps tokens = (applyRosterPlayers ps tokens, rosterEvents tokens) := by
  have h := roster_foldl_spec tokens ps []
  simpa [processRoster] using h

/-- C9: in the name-ack state (state 1), any message other than the
bad-name and name-taken signals is immediately reprocessed as the roster
payload: the machine ends in the word-list state (state 3), every token
with a trailing marker is applied as a join followed by a quit of the
stripped name, and every other token as a simple join. -/
theorem C9_nameack_fallthrough (players : List String) (msg : String)
    (h1 : msg ≠ ":badname") (h2 : msg ≠ ":taken") :
    joinStep ⟨1, players⟩ msg
      = (⟨3, applyRosterPlayers players (splitSp msg)⟩, rosterEvents (splitSp msg)) := by
  unfold joinStep
  simp [h1, h2, processRoster_eq]

/-- Witness for C9 at the spec's handshake scenario: the roster message
"alice bob_" arriving in the name-ack state yields roster {alice} with
bob's join-then-quit fired, in the word-list state. -/
theorem C9_witness :
    joinStep ⟨1, []⟩ "alice bob_"
      = (⟨3, ["alice"]⟩,
          [CB.onPlayerJoin "alice", CB.onPlayerJoin "bob", CB.onPlayerQuit "bob"]) := by
  have h := C9_nameack_fallthrough [] "alice bob_" (by decide) (by decide)
  rw [h]
  decide

/-! ### Claim C2: the joiner re-derives the word list -/

/-- C2 counterexample: a word-list snapshot "aaa_ aaaaaa" (the three-letter
word "aaa" already claimed, "aaaaaa" unclaimed) received in the word-list
state is handed to the Word Set Generator as a dictionary; the resulting
ledger re-derived from base word "aaaaaa" contains only "aaaaaa", entirely
unclaimed: the listed word "aaa" does not appear at all and the
claimed-marker is not honoured, refuting the verbatim materialization. -/
theorem C2_counterexample :
    joinStep ⟨3, ["alice"]⟩ "aaa_ aaaaaa"
      = (⟨3, ["alice"]⟩, [CB.makeGame ["aaa_", "aaaaaa"]]) ∧
    (joinerOnWordList ⟨[], [], [], false, 0, []⟩ "aaa_ aaaaaa" 0 (fun _ => 0)).map
        (fun g => g.answers)
      = some [[], [], [], [("aaaaaa", Claimant.unclaimed)]] := by
  constructor
  · decide
  · set_option maxRecDepth 100000 in
    set_option maxHeartbeats 2000000 in
    decide

/-- C2 amended: the joiner does not materialize the snapshot verbatim; it
re-derives its ledger via the Word Set Generator, treating the snapshot
tokens as the dictionary: the lower-cased tokens are filtered for length 6,
one of them is picked as the base word, and the four groups are rebuilt by
permutation, truncation, dedup, dictionary filter and sort, every entry
starting Unclaimed (claimed-markers are not stripped, so marker-suffixed
words are not recorded as claimed). -/
theorem C2_amended_joiner_rederives (st : GameState) (msg : String) (pick : Nat)
    (rnd : Nat → Nat) (g : GameState)
    (h : joinerOnWordList st msg pick rnd = some g) :
    ∃ bw, (((splitSp msg).map toLowerStr).filter (fun s => s.data.length = 6))[pick]?
        = some bw ∧
      g.answers = [3, 4, 5, 6].map (fun L =>
        (wordGroup ((splitSp msg).map toLowerStr) bw.toList L).map
          (fun w => (w, Claimant.unclaimed))) ∧
      g.score = st.score ∧ g.mp_scores = st.mp_scores ∧ g.gaveup = false := by
  unfold joinerOnWordList makeGameCB createGame at h
  dsimp only at h
  cases hbw : (((splitSp msg).map toLowerStr).filter (fun s => s.data.length = 6))[pick]? with
  | none =>
    simp only [hbw] at h
    exact Option.noConfusion h
  | some bw =>
    simp only [hbw] at h
    have hg : g = { st with
        answers := ([3, 4, 5, 6].map (fun i =>
          wordGroup ((splitSp msg).map toLowerStr) bw.toList i)).map
            (fun a => a.map (fun b => (b, Claimant.unclaimed)))
        avail_letters := (shuffle rnd bw.toList).map some
        input_box := []
        gaveup := false } := (Option.some.inj h).symm
    subst hg
    refine ⟨bw, rfl, ?_, rfl, rfl, rfl⟩
    simp [List.map_map]

/-- Witness for C2's amended statement on the snapshot "aaa_ aaaaaa". -/
theorem C2_amended_witness :
    joinerOnWordList ⟨[], [], [], false, 0, []⟩ "aaa_ aaaaaa" 0 (fun _ => 0)
      = some ⟨[[], [], [], [("aaaaaa", Claimant.unclaimed)]],
          List.replicate 6 (some 'a'), [], false, 0, []⟩ ∧
    ∃ bw, ((["aaa_", "aaaaaa"].map toLowerStr).filter (fun s => s.data.length = 6))[0]?
        = some bw ∧
      ([[], [], [], [("aaaaaa", Claimant.unclaimed)]] : Answers)
        = [3, 4, 5, 6].map (fun L =>
            (wordGroup (["aaa_", "aaaaaa"].map toLowerStr) bw.toList L).map
              (fun w => (w, Claimant.unclaimed))) := by
  have hsome : joinerOnWordList ⟨[], [], [], false, 0, []⟩ "aaa_ aaaaaa" 0 (fun _ => 0)
      = some ⟨[[], [], [], [("aaaaaa", Claimant.unclaimed)]],
          List.replicate 6 (some 'a'), [], false, 0, []⟩ := by
    set_option maxRecDepth 100000 in
    set_option maxHeartbeats 2000000 in
    decide
  refine ⟨hsome, ?_⟩
  have h := C2_amended_joiner_rederives ⟨[], [], [], false, 0, []⟩ "aaa_ aaaaaa" 0
    (fun _ => 0) _ hsome
  obtain ⟨bw, hbw, hans, _⟩ := h
  have hsplit : splitSp "aaa_ aaaaaa" = ["aaa_", "aaaaaa"] := by decide
  rw [hsplit] at hbw hans
  exact ⟨bw, hbw, hans⟩

/-! ### Claim C8: pool/buffer invariant -/

theorem length_swapL (a : List α) (i j : Nat) : (swapL a i j).length = a.length := by
  unfold swapL
  split
  · simp
  · rfl

theorem length_fyAux (rnd : Nat → Nat) (n : Nat) (a : List α) :
    (fyAux rnd n a).length = a.length := by
  induction n generalizing a with
  | zero => rfl
  | succ m ih =>
    show (fyAux rnd m (swapL a (m + 1) (rnd (m + 1) % (m + 2)))).length = a.length
    rw [ih, length_swapL]

theorem length_shuffle (rnd : Nat → Nat) (a : List α) : (shuffle rnd a).length = a.length :=
  length_fyAux rnd (a.length - 1) a

theorem occupied_map_some (l : List Char) : occupied (l.map some) = l.length := by
  induction l with
  | nil => rfl
  | cons x xs ih =>
    simp only [List.map_cons, occupied, List.countP_cons] at ih ⊢
    simp [ih]

theorem enterChar_eq_of_found (st : GameState) (i : Nat) (c : Char)
    (hc : st.avail_letters[i]? = some (some c)) :
    enterChar st i
      = ({ st with
          input_box := st.input_box ++ [c],
          avail_letters := st.avail_letters.set i none }, true) := by
  unfold enterChar
  rw [hc]

theorem enterChar_eq_of_oob (st : GameState) (i : Nat)
    (hc : st.avail_letters[i]? = none) : enterChar st i = (st, false) := by
  unfold enterChar
  rw [hc]

theorem enterChar_eq_of_empty (st : GameState) (i : Nat)
    (hc : st.avail_letters[i]? = some none) : enterChar st i = (st, false) := by
  unfold enterChar
  rw [hc]

theorem backspaceChar_eq_fail (st : GameState) (idx : Option Nat)
    (h : ¬(0 < st.input_box.length ∧
        (idx = none ∨ some st.input_box.length = idx.map (· + 1)))) :
    backspaceChar st idx = (st, false) := by
  unfold backspaceChar
  rw [if_neg h]

theorem backspaceChar_eq_succ (st : GameState) (idx : Option Nat) (ch : Char)
    (h : 0 < st.input_box.length ∧
        (idx = none ∨ some st.input_box.length = idx.map (· + 1)))
    (hch : st.input_box.getLast? = some ch) :
    backspaceChar st idx = ({ st with
        input_box := st.input_box.dropLast,
        avail_letters :=
          (match lastIndexOfEmpty st.avail_letters with
            | some k => st.avail_letters.set k (some ch)
            | none => st.avail_letters) }, true) := by
  unfold backspaceChar
  rw [if_pos h, hch]

theorem occupied_le_length (l : List (Option Char)) : occupied l ≤ l.length :=
  List.countP_le_length _

theorem occupied_all_some (l : List (Option Char)) (h : ∀ x ∈ l, x ≠ none) :
    occupied l = l.length := by
  apply List.countP_eq_length.mpr
  intro a ha
  cases hc : a with
  | none => exact absurd hc (h a ha)
  | some c => rfl

theorem occupied_set_none (l : List (Option Char)) (i : Nat) (c : Char)
    (h : l[i]? = some (some c)) : occupied (l.set i none) + 1 = occupied l := by
  induction l generalizing i with
  | nil => simp at h
  | cons x xs ih =>
    cases i with
    | zero =>
      simp only [List.getElem?_cons_zero, Option.some.injEq] at h
      subst h
      simp [occupied, List.countP_cons]
    | succ i' =>
      simp only [List.getElem?_cons_succ] at h
      have := ih i' h
      simp only [List.set_cons_succ, occupied, List.countP_cons] at this ⊢
      omega

theorem occupied_set_some (l : List (Option Char)) (k : Nat) (c : Char)
    (h : l[k]? = some none) : occupied (l.set k (some c)) = occupied l + 1 := by
  induction l generalizing k with
  | nil => simp at h
  | cons x xs ih =>
    cases k with
    | zero =>
      simp only [List.getElem?_cons_zero, Option.some.injEq] at h
      subst h
      simp [occupied, List.countP_cons]
    | succ k' =>
      simp only [List.getElem?_cons_succ] at h
      have := ih k' h
      simp only [List.set_cons_succ, occupied, List.countP_cons] at this ⊢
      omega

theorem stepOp_inv (n : Nat) (st : GameState) (op : Op)
    (h : st.avail_letters.length = n ∧ st.input_box.length + occupied st.avail_letters = n) :
    (stepOp st op).avail_letters.length = n ∧
      (stepOp st op).input_box.length + occupied (stepOp st op).avail_letters = n := by
  obtain ⟨hlen, hsum⟩ := h
  cases op with
  | enter i =>
    simp only [stepOp]
    cases hc : st.avail_letters[i]? with
    | none =>
      rw [enterChar_eq_of_oob st i hc]
      exact ⟨hlen, hsum⟩
    | some s =>
      cases s with
      | none =>
        rw [enterChar_eq_of_empty st i hc]
        exact ⟨hlen, hsum⟩
      | some c =>
        rw [enterChar_eq_of_found st i c hc]
        have hocc := occupied_set_none st.avail_letters i c hc
        constructor
        · simpa using hlen
        · simp only [List.length_append, List.length_cons, List.length_nil]
          omega
  | backspace idx =>
    simp only [stepOp]
    by_cases hcnd : 0 < st.input_box.length ∧
        (idx = none ∨ some st.input_box.length = idx.map (· + 1))
    · have hne : st.input_box ≠ [] := List.ne_nil_of_length_pos hcnd.1
      obtain ⟨ch0, hch0⟩ := Option.ne_none_iff_exists'.mp
        (mt List.getLast?_eq_none_iff.mp hne)
      rw [backspaceChar_eq_succ st idx ch0 hcnd hch0]
      cases hle : lastIndexOfEmpty st.avail_letters with
      | none =>
        have hall := (lastIndexOfEmpty_eq_none st.avail_letters).mp hle
        have : occupied st.avail_letters = st.avail_letters.length :=
          occupied_all_some st.avail_letters hall
        omega
      | some k =>
        have hk := (lastIndexOfEmpty_spec st.avail_letters k hle).1
        have hocc := occupied_set_some st.avail_letters k ch0 hk
        constructor
        · simpa using hlen
        · simp only [List.length_dropLast]
          omega
    · rw [backspaceChar_eq_fail st idx hcnd]
      exact ⟨hlen, hsum⟩

theorem applyOps_inv (n : Nat) (st : GameState) (ops : List Op)
    (h : st.avail_letters.length = n ∧ st.input_box.length + occupied st.avail_letters = n) :
    (applyOps st ops).avail_letters.length = n ∧
      (applyOps st ops).input_box.length + occupied (applyOps st ops).avail_letters = n := by
  induction ops generalizing st with
  | nil => exact h
  | cons op ops ih =>
    have hstep : applyOps st (op :: ops) = applyOps (stepOp st op) ops := rfl
    rw [hstep]
    exact ih (stepOp st op) (stepOp_inv n st op h)

/-- C8: from a freshly created game with base word `bw`, after any sequence
of `enterChar`/`backspaceChar` calls (successful or not) the number of
letters in the input buffer plus the occupied pool slots equals the base
word's length. -/
theorem C8_pool_buffer_invariant (st0 : GameState) (dictionary : List String) (pick : Nat)
    (rnd : Nat → Nat) (g : GameState) (bw : String)
    (hbw : ((dictionary.map toLowerStr).filter (fun s => s.data.length = 6))[pick]? = some bw)
    (hg : createGame st0 dictionary pick rnd = some g) (ops : List Op) :
    (applyOps g ops).input_box.length + occupied (applyOps g ops).avail_letters
      = bw.length := by
  unfold createGame at hg
  dsimp only at hg
  simp only [hbw] at hg
  have hgdef : g = { st0 with
      answers := ([3, 4, 5, 6].map (fun i =>
        wordGroup (dictionary.map toLowerStr) bw.toList i)).map
          (fun a => a.map (fun b => (b, Claimant.unclaimed)))
      avail_letters := (shuffle rnd bw.toList).map some
      input_box := []
      gaveup := false } := (Option.some.inj hg).symm
  have hinit : g.avail_letters.length = bw.length ∧
      g.input_box.length + occupied g.avail_letters = bw.length := by
    rw [hgdef]
    constructor
    · show ((shuffle rnd bw.toList).map some).length = bw.length
      rw [List.length_map, length_shuffle]
      rfl
    · show ([] : List Char).length + occupied ((shuffle rnd bw.toList).map some) = bw.length
      rw [List.length_nil, Nat.zero_add, occupied_map_some, length_shuffle]
      rfl
  exact (applyOps_inv bw.length g ops hinit).2

/-- Witness for C8: fresh game on the dictionary `["aaaaaa"]`, then one
`enterChar` and one `backspaceChar`; the invariant value is 6. -/
theorem C8_witness :
    (applyOps ⟨[[], [], [], [("aaaaaa", Claimant.unclaimed)]],
        List.replicate 6 (some 'a'), [], false, 0, []⟩
      [Op.enter 0, Op.backspace none]).input_box.length +
    occupied (applyOps ⟨[[], [], [], [("aaaaaa", Claimant.unclaimed)]],
        List.replicate 6 (some 'a'), [], false, 0, []⟩
      [Op.enter 0, Op.backspace none]).avail_letters = "aaaaaa".length := by
  exact C8_pool_buffer_invariant ⟨[], [], [], false, 0, []⟩ ["aaaaaa"] 0 (fun _ => 0)
    ⟨[[], [], [], [("aaaaaa", Claimant.unclaimed)]],
      List.replicate 6 (some 'a'), [], false, 0, []⟩ "aaaaaa" (by decide)
    (by
      set_option maxRecDepth 100000 in
      set_option maxHeartbeats 2000000 in
      decide)
    [Op.enter 0, Op.backspace none]

/-! ### Claim C1: the word set generator -/

theorem charListLt_asymm (x y : List Char) (h : charListLt x y = true) :
    charListLt y x = false := by
  induction x generalizing y with
  | nil =>
    cases y with
    | nil => simp [charListLt] at h
    | cons b bs => simp [charListLt]
  | cons a as ih =>
    cases y with
    | nil => simp [charListLt] at h
    | cons b bs =>
      by_cases hab : a < b
      · have hba : ¬b < a := lt_asymm hab
        simp [charListLt, hab, hba]
      · by_cases hba : b < a
        · simp [charListLt, hab, hba] at h
        · simp only [charListLt, if_neg hab, if_neg hba] at h ⊢
          exact ih bs h

theorem charListLt_or_of_lt (x z y : List Char) (h : charListLt x z = true) :
    charListLt x y = true ∨ charListLt y z = true := by
  induction x generalizing y z with
  | nil =>
    cases z with
    | nil => simp [charListLt] at h
    | cons c cs =>
      cases y with
      | nil => right; simp [charListLt]
      | cons b bs => left; simp [charListLt]
  | cons a as ih =>
    cases z with
    | nil => simp [charListLt] at h
    | cons c cs =>
      cases y with
      | nil => right; simp [charListLt]
      | cons b bs =>
        by_cases hab : a < b
        · left
          simp [charListLt, hab]
        · by_cases hba : b < a
          · right
            have hbc : b < c := by
              by_cases hac : a < c
              · exact lt_trans hba hac
              · by_cases hca : c < a
                · simp [charListLt, hac, hca] at h
                · have hac2 : a = c := le_antisymm (not_lt.mp hca) (not_lt.mp hac)
                  rw [← hac2]
                  exact hba
            have hcb : ¬c < b := lt_asymm hbc
            simp [charListLt, hbc]
          · have hba2 : a = b := le_antisymm (not_lt.mp hba) (not_lt.mp hab)
            subst hba2
            by_cases hac : a < c
            · right
              simp [charListLt, hac]
            · by_cases hca : c < a
              · simp [charListLt, hac, hca] at h
              · simp only [charListLt, if_neg hac, if_neg hca] at h
                rcases ih cs bs h with h' | h'
                · left
                  simp [charListLt, h']
                · right
                  simp [charListLt, hac, hca, h']

theorem charListLt_trichotomy (x y : List Char) :
    charListLt x y = true ∨ x = y ∨ charListLt y x = true := by
  induction x generalizing y with
  | nil =>
    cases y with
    | nil => right; left; rfl
    | cons b bs => left; simp [charListLt]
  | cons a as ih =>
    cases y with
    | nil => right; right; simp [charListLt]
    | cons b bs =>
      by_cases hab : a < b
      · left; simp [charListLt, hab]
      · by_cases hba : b < a
        · right; right; simp [charListLt, hba]
        · have heq : a = b := le_antisymm (not_lt.mp hba) (not_lt.mp hab)
          subst heq
          rcases ih bs with h' | h' | h'
          · left; simp [charListLt, hab, hba, h']
          · right; left; rw [h']
          · right; right; simp [charListLt, hab, hba, h']

theorem strLeB_total (a b : String) : strLeB a b = true ∨ strLeB b a = true := by
  unfold strLeB strLtB
  by_cases h : charListLt b.data a.data = true
  · right
    simp [charListLt_asymm _ _ h]
  · left
    simp only [Bool.not_eq_true] at h
    simp [h]

theorem strLeB_trans (a b c : String) (hab : strLeB a b = true) (hbc : strLeB b c = true) :
    strLeB a c = true := by
  unfold strLeB strLtB at hab hbc ⊢
  simp only [Bool.not_eq_true'] at hab hbc ⊢
  by_contra hca
  simp only [Bool.not_eq_false] at hca
  rcases charListLt_or_of_lt c.data a.data b.data hca with h' | h'
  · rw [h'] at hbc
    cases hbc
  · rw [h'] at hab
    cases hab

theorem strLt_of_le_of_ne (a b : String) (hle : strLeB a b = true) (hne : a ≠ b) :
    strLtB a b = true := by
  rcases charListLt_trichotomy a.data b.data with h | h | h
  · exact h
  · have : a = b := by
      cases a
      cases b
      exact congrArg String.mk h
    exact absurd this hne
  · unfold strLeB strLtB at hle
    rw [h] at hle
    cases hle

theorem mem_selections (l : List α) (p : α × List α) (h : p ∈ selections l) :
    List.Perm (p.1 :: p.2) l := by
  induction l generalizing p with
  | nil => simp [selections] at h
  | cons x xs ih =>
    simp only [selections, List.mem_cons, List.mem_map] at h
    rcases h with rfl | ⟨q, hq, rfl⟩
    · exact List.Perm.refl _
    · have hperm := ih q hq
      exact (List.Perm.swap x q.1 q.2).trans (hperm.cons x)

theorem mem_permuteAux (fuel : Nat) (l : List α) (s : List α) (h : s ∈ permuteAux fuel l) :
    List.Perm s l := by
  induction fuel generalizing l s with
  | zero => simp [permuteAux] at h
  | succ m ih =>
    simp only [permuteAux, List.mem_flatMap] at h
    obtain ⟨p, hp, hs⟩ := h
    by_cases he : p.2.isEmpty
    · rw [if_pos he] at hs
      simp only [List.mem_singleton] at hs
      subst hs
      have hsel := mem_selections l p hp
      have h2 : p.2 = [] := List.isEmpty_iff.mp he
      rwa [h2] at hsel
    · rw [if_neg he] at hs
      simp only [List.mem_map] at hs
      obtain ⟨t, ht, rfl⟩ := hs
      exact ((ih p.2 t ht).cons p.1).trans (mem_selections l p hp)

theorem mem_permute (l : List α) (s : List α) (h : s ∈ permute l) : List.Perm s l :=
  mem_permuteAux l.length l s h

theorem mem_uniqFastAux [DecidableEq α] (a seen : List α) (x : α) :
    x ∈ uniqFastAux a seen ↔ x ∈ a ∧ x ∉ seen := by
  induction a generalizing seen with
  | nil => simp [uniqFastAux]
  | cons y ys ih =>
    by_cases hy : y ∈ seen
    · rw [uniqFastAux, if_pos hy, ih]
      constructor
      · rintro ⟨hx, hn⟩
        exact ⟨List.mem_cons.mpr (Or.inr hx), hn⟩
      · rintro ⟨hx, hn⟩
        rcases List.mem_cons.mp hx with rfl | hx'
        · exact absurd hy hn
        · exact ⟨hx', hn⟩
    · rw [uniqFastAux, if_neg hy]
      constructor
      · intro hx
        rcases List.mem_cons.mp hx with rfl | hx'
        · exact ⟨List.mem_cons.mpr (Or.inl rfl), hy⟩
        · obtain ⟨h1, h2⟩ := (ih (y :: seen)).mp hx'
          exact ⟨List.mem_cons.mpr (Or.inr h1), fun hc => h2 (List.mem_cons.mpr (Or.inr hc))⟩
      · rintro ⟨hx, hn⟩
        rcases List.mem_cons.mp hx with rfl | hx'
        · exact List.mem_cons.mpr (Or.inl rfl)
        · by_cases hxy : x = y
          · subst hxy
            exact List.mem_cons.mpr (Or.inl rfl)
          · refine List.mem_cons.mpr (Or.inr ((ih (y :: seen)).mpr ⟨hx', ?_⟩))
            intro hc
            rcases List.mem_cons.mp hc with h' | h'
            · exact hxy h'
            · exact hn h'

theorem nodup_uniqFastAux [DecidableEq α] (a seen : List α) : (uniqFastAux a seen).Nodup := by
  induction a generalizing seen with
  | nil => simp [uniqFastAux]
  | cons y ys ih =>
    by_cases hy : y ∈ seen
    · rw [uniqFastAux, if_pos hy]
      exact ih seen
    · rw [uniqFastAux, if_neg hy]
      refine List.nodup_cons.mpr ⟨?_, ih (y :: seen)⟩
      intro hmem
      exact ((mem_uniqFastAux ys (y :: seen) y).mp hmem).2 (List.mem_cons.mpr (Or.inl rfl))

theorem mem_uniq_fast [DecidableEq α] (a : List α) (x : α) : x ∈ uniq_fast a ↔ x ∈ a := by
  simpa using mem_uniqFastAux a [] x

theorem nodup_uniq_fast [DecidableEq α] (a : List α) : (uniq_fast a).Nodup :=
  nodup_uniqFastAux a []

theorem string_mk_injective : Function.Injective String.mk :=
  fun _ _ h => congrArg String.data h

/-- C1: for every dictionary and every chosen six-letter base word, the
group the Word Set Generator produces for a length L in {3,4,5,6} has no
duplicate strings, is strictly ascending in lexicographic order, and every
word in it is a member of the lower-cased dictionary, has length exactly L,
and is formable from a sub-multiset of the base word's letters. -/
theorem C1_word_set_generator (dictionary : List String) (baseWord : List Char) (L : Nat)
    (hbw : baseWord.length = 6) (hL3 : 3 ≤ L) (hL6 : L ≤ 6) :
    (wordGroup (dictionary.map toLowerStr) baseWord L).Nodup ∧
    List.Pairwise (fun a b => strLtB a b = true)
      (wordGroup (dictionary.map toLowerStr) baseWord L) ∧
    ∀ w ∈ wordGroup (dictionary.map toLowerStr) baseWord L,
      w ∈ dictionary.map toLowerStr ∧ w.length = L ∧ List.Subperm w.data baseWord := by
  unfold wordGroup
  have hFnodup : (((getUniqPermutations baseWord L).map (fun a => String.mk a)).filter
      (fun s => (dictionary.map toLowerStr).contains s)).Nodup :=
    ((nodup_uniq_fast _).map string_mk_injective).filter _
  have hperm := List.perm_insertionSort (fun a b => strLeB a b = true)
    (((getUniqPermutations baseWord L).map (fun a => String.mk a)).filter
      (fun s => (dictionary.map toLowerStr).contains s))
  have hGnodup := hperm.symm.nodup hFnodup
  have hsorted : List.Sorted (fun a b => strLeB a b = true)
      ((((getUniqPermutations baseWord L).map (fun a => String.mk a)).filter
        (fun s => (dictionary.map toLowerStr).contains s)).insertionSort
          (fun a b => strLeB a b = true)) :=
    @List.sorted_insertionSort String (fun a b => strLeB a b = true)
      (fun _ _ => instDecidableEqBool _ _) ⟨fun a b => strLeB_total a b⟩
      ⟨fun a b c => strLeB_trans a b c⟩ _
  have hstrict : List.Pairwise (fun a b => strLtB a b = true)
      ((((getUniqPermutations baseWord L).map (fun a => String.mk a)).filter
        (fun s => (dictionary.map toLowerStr).contains s)).insertionSort
          (fun a b => strLeB a b = true)) :=
    (List.Pairwise.and hsorted hGnodup).imp
      (fun h => strLt_of_le_of_ne _ _ h.1 h.2)
  refine ⟨hGnodup, hstrict, ?_⟩
  intro w hw
  have hwF := hperm.mem_iff.mp hw
  have hwM := (List.mem_filter.mp hwF).1
  have hcont := (List.mem_filter.mp hwF).2
  have hdict : w ∈ dictionary.map toLowerStr := by
    simpa using hcont
  obtain ⟨s', hs', rfl⟩ := List.mem_map.mp hwM
  have hsP : s' ∈ (permute baseWord).map (fun l => l.take L) :=
    (mem_uniq_fast _ _).mp hs'
  obtain ⟨s, hsmem, rfl⟩ := List.mem_map.mp hsP
  have hp : List.Perm s baseWord := mem_permute baseWord s hsmem
  have hlen : (s.take L).length = L := by
    rw [List.length_take, hp.length_eq, hbw]
    omega
  exact ⟨hdict, hlen, ((List.take_sublist L s).subperm).trans hp.subperm⟩

/-- Witness for C1 at the spec's end-to-end example: base word "garden",
dictionary {den, dare, rang, garden}, length 3. -/
theorem C1_witness :
    "garden".toList.length = 6 ∧
    ((wordGroup (["den", "dare", "rang", "garden"].map toLowerStr) "garden".toList 3).Nodup ∧
    List.Pairwise (fun a b => strLtB a b = true)
      (wordGroup (["den", "dare", "rang", "garden"].map toLowerStr) "garden".toList 3) ∧
    ∀ w ∈ wordGroup (["den", "dare", "rang", "garden"].map toLowerStr) "garden".toList 3,
      w ∈ ["den", "dare", "rang", "garden"].map toLowerStr ∧ w.length = 3 ∧
        List.Subperm w.data "garden".toList) :=
  ⟨by decide,
   C1_word_set_generator ["den", "dare", "rang", "garden"] "garden".toList 3
     (by decide) (by decide) (by decide)⟩

end SixLetters
